import Mathlib

/-!
Shallow embedding of `src/sorting.py` (repository sepstein22/sorting).

The module provides three comparator helpers (`cmp_standard`, `cmp_reverse`,
`cmp_last_digit`), a linear-time merge of two sorted lists (`_merged`), a
copying merge sort (`merge_sorted`), a copying quicksort (`quick_sorted`) and
an in-place quicksort (`quick_sort`).  Elements are Python ints, embedded as
`Int`; a comparator is an arbitrary function `Int → Int → Int`.

Loops (`while`/`for`) and general recursion are embedded with an explicit
fuel parameter; `none` marks a computation that did not finish within the
given fuel.  Each wrapper fixes a fuel that is proved (or evident) to be
sufficient for every terminating run of the Python original, so `none` at the
wrapper level models genuine divergence of the source loop.

Python exceptions (`IndexError` from an out-of-range subscript, `TypeError`
from calling `len` on an int) are embedded with `Except PyExc`.

A second embedding at the end of the file runs the same code over an explicit
store of list objects, so that statements about (non-)mutation of the
caller's list are expressible.
-/

/-- Python exceptions that the embedded code can raise. -/
inductive PyExc where
  | indexError : PyExc
  | typeError : PyExc
deriving DecidableEq, Repr

/-- A Python comparator: a function of two elements returning an int. -/
abbrev Cmp := Int → Int → Int

/-- `cmp_standard(a, b)` from the source: `-1` if `a < b`, `1` if `b < a`, else `0`. -/
def cmp_standard (a b : Int) : Int :=
  if a < b then -1
  else if b < a then 1
  else 0

/-- `cmp_reverse(a, b)` from the source: `1` if `a < b`, `-1` if `b < a`, else `0`. -/
def cmp_reverse (a b : Int) : Int :=
  if a < b then 1
  else if b < a then -1
  else 0

/-- `cmp_last_digit(a, b)` from the source: `cmp_standard(a % 10, b % 10)`.
Python's `%` on ints with a positive modulus returns a value in `[0, 10)`,
which matches `Int.emod`. -/
def cmp_last_digit (a b : Int) : Int :=
  cmp_standard (a % 10) (b % 10)

/-- One iteration of the main `while` loop of `_merged` (source lines 94-106).
The source computes `sorting = cmp(xs[i], ys[j])` once and then runs three
independent `if` statements (not `elif`), each of which appends to
`list_compiled` and advances a cursor; they are embedded as three sequential
conditional updates of the state `(list_compiled, i, j)`.  List subscripts are
embedded with `getD` (the source only subscripts in bounds, under the loop
guard `i < len(xs) and j < len(ys)`). -/
def mergedStep (cmp : Cmp) (xs ys : List Int) (i j : Nat) (acc : List Int) :
    List Int × Nat × Nat :=
  let sorting := cmp (xs.getD i 0) (ys.getD j 0)
  let (acc, i, j) :=
    if sorting = -1 then (acc ++ [xs.getD i 0], i + 1, j) else (acc, i, j)
  let (acc, i, j) :=
    if sorting = 0 then (acc ++ [xs.getD i 0, ys.getD j 0], i + 1, j + 1) else (acc, i, j)
  let (acc, i, j) :=
    if sorting = 1 then (acc ++ [ys.getD j 0], i, j + 1) else (acc, i, j)
  (acc, i, j)

/-- The `while i < len(xs) and j < len(ys)` loop of `_merged`, followed by the
two exhaustion loops (source lines 107-112), which append the remainders
`xs[i:]` and `ys[j:]` one element at a time; their net effect is embedded as
appending `xs.drop i ++ ys.drop j`.  Runs on fuel; `none` means the main loop
was still running when the fuel ran out. -/
def mergedLoop (cmp : Cmp) (xs ys : List Int) :
    Nat → Nat → Nat → List Int → Option (List Int)
  | 0, i, j, acc =>
    if i < xs.length ∧ j < ys.length then none
    else some (acc ++ xs.drop i ++ ys.drop j)
  | fuel + 1, i, j, acc =>
    if i < xs.length ∧ j < ys.length then
      let (acc', i', j') := mergedStep cmp xs ys i j acc
      mergedLoop cmp xs ys fuel i' j' acc'
    else some (acc ++ xs.drop i ++ ys.drop j)

/-- `_merged(xs, ys, cmp)` from the source: merge starting from
`list_compiled = []`, `i = 0`, `j = 0`.  A conforming comparator advances
`i + j` on every iteration, so `len(xs) + len(ys)` iterations always suffice;
a non-conforming comparator can make the source loop spin forever, which this
embedding reports as `none`. -/
def _merged (xs ys : List Int) (cmp : Cmp) : Option (List Int) :=
  mergedLoop cmp xs ys (xs.length + ys.length) 0 0 []

/-- `merge_sorted(xs, cmp)` body (source lines 116-142), on fuel for the
recursion.  The source copies the input (`deepcopy`), computes the midpoint,
returns `xs` itself when `len(xs)` is 1 or 0, and otherwise recursively sorts
`dc_xs[0:middle]` and `xs[middle:]` and merges them.  Python slices allocate
fresh lists, so on values `deepcopy` and slicing are `take`/`drop`. -/
def mergeSortedFuel (cmp : Cmp) : Nat → List Int → Option (List Int)
  | 0, _ => none
  | fuel + 1, xs =>
    let dc_xs := xs
    let middle := dc_xs.length / 2
    if xs.length = 1 ∨ xs.length = 0 then some xs
    else
      let left := dc_xs.take middle
      let right := xs.drop middle
      match mergeSortedFuel cmp fuel left with
      | none => none
      | some left_sort =>
        match mergeSortedFuel cmp fuel right with
        | none => none
        | some right_sort => _merged left_sort right_sort cmp

/-- `merge_sorted(xs, cmp)`.  Every recursive call receives a strictly shorter
list, so recursion depth is below `len(xs) + 1` and the fixed fuel is enough
for every run of the source; `none` can still arise from a diverging
`_merged` call under a non-conforming comparator. -/
def merge_sorted (xs : List Int) (cmp : Cmp) : Option (List Int) :=
  mergeSortedFuel cmp (xs.length + 1) xs

/-- The `for i in xs` partition loop of `quick_sorted` (source lines 177-183).
The first `if` appends to `higher`; the `else` is attached to the second `if`,
so every element that is not less than the pivot lands in `equal` — including
elements greater than the pivot, which then occur in both `higher` and
`equal`. -/
def quickPartLoop (pivot : Int) :
    List Int → List Int × List Int × List Int → List Int × List Int × List Int
  | [], st => st
  | i :: rest, (higher, lower, equal) =>
    let higher := if pivot < i then higher ++ [i] else higher
    let (lower, equal) :=
      if i < pivot then (lower ++ [i], equal) else (lower, equal ++ [i])
    quickPartLoop pivot rest (higher, lower, equal)

/-- `quick_sorted(xs, cmp)` body (source lines 145-187), on fuel for the
recursion.  The only base case is `len(xs) == 1`; on the empty list the pivot
subscript `xs[1]` raises `IndexError`.  The recursive calls pass
`cmp=cmp_standard`, not the received comparator, and the partition compares
with the intrinsic `<` and `>` operators, so `cmp` is never used. -/
def quickSortedFuel (_cmp : Cmp) : Nat → List Int → Option (Except PyExc (List Int))
  | 0, _ => none
  | fuel + 1, xs =>
    if xs.length = 1 then some (Except.ok xs)
    else
      match xs.get? 1 with
      | none => some (Except.error PyExc.indexError)
      | some pivot =>
        let (higher, lower, equal) := quickPartLoop pivot xs ([], [], [])
        match quickSortedFuel cmp_standard fuel lower with
        | none => none
        | some (Except.error e) => some (Except.error e)
        | some (Except.ok less_than) =>
          match quickSortedFuel cmp_standard fuel higher with
          | none => none
          | some (Except.error e) => some (Except.error e)
          | some (Except.ok greater_than) =>
            some (Except.ok (less_than ++ equal ++ greater_than))

/-- `quick_sorted(xs, cmp)`.  The pivot `xs[1]` never lands in `lower` or in
`higher`, so both recursive arguments are strictly shorter than `xs` and the
fixed fuel covers every run of the source. -/
def quick_sorted (xs : List Int) (cmp : Cmp) : Option (Except PyExc (List Int)) :=
  quickSortedFuel cmp (xs.length + 1) xs

/-- The `for j in range(len(xs) - 1)` partition loop of `quick_sort`
(source lines 222-227): when `cmp(xs[j], xs[hi]) == -1`, swap `xs[j]` with
`xs[lo]` (via the temporary `t`) and advance `lo`.  The swap writes `xs[j]`
before reading `xs[lo]` exactly as the source's three assignments do. -/
def qsPartLoop (cmp : Cmp) (hi : Nat) :
    List Nat → List Int → Nat → List Int × Nat
  | [], xs, lo => (xs, lo)
  | j :: rest, xs, lo =>
    if cmp (xs.getD j 0) (xs.getD hi 0) = -1 then
      let t := xs.getD j 0
      let xs := (xs.set j (xs.getD lo 0)).set lo t
      qsPartLoop cmp hi rest xs (lo + 1)
    else
      qsPartLoop cmp hi rest xs lo

/-- `quick_sort(xs, cmp)` body (source lines 190-233), on fuel.  The `while
lo < hi` body ends in `return`, so it runs at most once and is embedded as a
conditional; for `len(xs) ≥ 2` the condition `0 < len(xs) - 1` holds, and the
fall-through branch is unreachable.  After the partition and the pivot swap,
`xs[:lo] = quick_sort(xs[:lo], cmp)` splices the recursive result over the
first `lo` slots.  The final statement `xs[lo+1:] = quick_sort(xs[lo+1], cmp)`
subscripts a single element: when `lo + 1` is in range the element (an int) is
passed to `quick_sort`, whose `len(xs)` call raises `TypeError`; when it is
out of range the subscript itself raises `IndexError`. -/
def quickSortFuel (cmp : Cmp) : Nat → List Int → Option (Except PyExc (List Int))
  | 0, _ => none
  | fuel + 1, xs =>
    if xs.length = 1 ∨ xs.length = 0 then some (Except.ok xs)
    else
      let hi := xs.length - 1
      let lo := 0
      if lo < hi then
        let (xs1, lo1) := qsPartLoop cmp hi (List.range (xs.length - 1)) xs lo
        let t := xs1.getD hi 0
        let xs2 := (xs1.set hi (xs1.getD lo1 0)).set lo1 t
        match quickSortFuel cmp fuel (xs2.take lo1) with
        | none => none
        | some (Except.error e) => some (Except.error e)
        | some (Except.ok r) =>
          let xs3 := r ++ xs2.drop lo1
          if lo1 + 1 < xs3.length then some (Except.error PyExc.typeError)
          else some (Except.error PyExc.indexError)
      else some (Except.ok xs)

/-- `quick_sort(xs, cmp)`.  The only recursive call that can return is on the
strictly shorter list `xs[:lo]`, so the fixed fuel covers every run. -/
def quick_sort (xs : List Int) (cmp : Cmp) : Option (Except PyExc (List Int)) :=
  quickSortFuel cmp (xs.length + 1) xs

/-- The comparator ordering induced by a comparator: `a` is LESS than or
EQUAL to `b` when `cmp a b` is `-1` or `0` (spec section 3). -/
def leC (cmp : Cmp) (a b : Int) : Prop :=
  cmp a b = -1 ∨ cmp a b = 0

instance (cmp : Cmp) (a b : Int) : Decidable (leC cmp a b) :=
  inferInstanceAs (Decidable (cmp a b = -1 ∨ cmp a b = 0))

/-- A sorted sequence in the sense of the spec: every adjacent pair compares
LESS or EQUAL under the comparator. -/
def SortedC (cmp : Cmp) (l : List Int) : Prop :=
  List.Chain' (leC cmp) l

/-- Boolean check for `SortedC`, used only to give `SortedC` a decision
procedure that the kernel can evaluate. -/
def sortedCb (cmp : Cmp) : List Int → Bool
  | [] => true
  | [_] => true
  | a :: b :: rest => decide (leC cmp a b) && sortedCb cmp (b :: rest)

instance (cmp : Cmp) (l : List Int) : Decidable (SortedC cmp l) :=
  decidable_of_iff (sortedCb cmp l = true) (by
    induction l with
    | nil => simp [sortedCb, SortedC]
    | cons a t ih =>
      cases t with
      | nil => simp [sortedCb, SortedC]
      | cons b r =>
        simp only [SortedC] at ih ⊢
        simp only [sortedCb, Bool.and_eq_true, decide_eq_true_eq, List.chain'_cons, ih])

instance {α : Type} [DecidableEq α] : DecidableEq (Except PyExc α) := fun x y =>
  match x, y with
  | Except.ok a, Except.ok b =>
      if h : a = b then isTrue (h ▸ rfl)
      else isFalse (fun hc => h (Except.ok.inj hc))
  | Except.error a, Except.error b =>
      if h : a = b then isTrue (h ▸ rfl)
      else isFalse (fun hc => h (Except.error.inj hc))
  | Except.ok _, Except.error _ => isFalse (fun hc => Except.noConfusion hc)
  | Except.error _, Except.ok _ => isFalse (fun hc => Except.noConfusion hc)

/-- The comparator contract of spec section 3: a conforming comparator returns
exactly one of `{-1, 0, 1}` and defines a total preorder on the elements. -/
structure IsComparator (cmp : Cmp) : Prop where
  total : ∀ a b, cmp a b = -1 ∨ cmp a b = 0 ∨ cmp a b = 1
  flip : ∀ a b, cmp a b = 1 ↔ cmp b a = -1
  eq_symm : ∀ a b, cmp a b = 0 → cmp b a = 0
  le_trans : ∀ a b c, leC cmp a b → leC cmp b c → leC cmp a c

/-! ## Store-level embedding

Python lists are mutable objects; to state which lists a call mutates, the
same source code is embedded a second time over an explicit store of list
objects.  An address is an index into the store; `readL` reads the contents of
a list object, `writeH` overwrites them, `allocH` creates a fresh object (as a
Python list display, slice, `deepcopy` or concatenation does) and `appendH` is
`list.append`.  The pure embedding above and this one are two views of the
same source lines; all frame (non-mutation) claims are settled here. -/

/-- The store of list objects: address `a` holds the list `s.getD a []`. -/
abbrev Store := List (List Int)

/-- Read the contents of the list object at address `a`. -/
def readL (s : Store) (a : Nat) : List Int :=
  s.getD a []

/-- Overwrite the contents of the list object at address `a`. -/
def writeH (s : Store) (a : Nat) (v : List Int) : Store :=
  s.set a v

/-- Allocate a fresh list object holding `v`; returns the new store and the
fresh address. -/
def allocH (s : Store) (v : List Int) : Store × Nat :=
  (s ++ [v], s.length)

/-- `obj.append(v)` on the list object at address `a`. -/
def appendH (s : Store) (a : Nat) (v : Int) : Store :=
  writeH s a (readL s a ++ [v])

/-- Store-level `mergedStep`: one iteration of the main loop of `_merged`,
with `list_compiled` living at address `la`. -/
def mergedStepH (cmp : Cmp) (xa ya la : Nat) (i j : Nat) (s : Store) :
    Store × Nat × Nat :=
  let sorting := cmp ((readL s xa).getD i 0) ((readL s ya).getD j 0)
  let (s, i, j) :=
    if sorting = -1 then (appendH s la ((readL s xa).getD i 0), i + 1, j)
    else (s, i, j)
  let (s, i, j) :=
    if sorting = 0 then
      (appendH (appendH s la ((readL s xa).getD i 0)) la ((readL s ya).getD j 0),
        i + 1, j + 1)
    else (s, i, j)
  let (s, i, j) :=
    if sorting = 1 then (appendH s la ((readL s ya).getD j 0), i, j + 1)
    else (s, i, j)
  (s, i, j)

/-- Store-level main loop of `_merged`, on fuel. -/
def mergedLoopH (cmp : Cmp) (xa ya la : Nat) :
    Nat → Nat → Nat → Store → Option (Store × Nat × Nat)
  | 0, i, j, s =>
    if i < (readL s xa).length ∧ j < (readL s ya).length then none
    else some (s, i, j)
  | fuel + 1, i, j, s =>
    if i < (readL s xa).length ∧ j < (readL s ya).length then
      let (s', i', j') := mergedStepH cmp xa ya la i j s
      mergedLoopH cmp xa ya la fuel i' j' s'
    else some (s, i, j)

/-- Store-level `_merged(xs, ys, cmp)`: allocate `list_compiled = []`, run the
main loop, then run the two exhaustion loops, whose net effect is appending
the remainders `xs[i:]` and `ys[j:]` to `list_compiled`. -/
def _mergedH (s : Store) (xa ya : Nat) (cmp : Cmp) : Option (Store × Nat) :=
  let (s1, la) := allocH s []
  match mergedLoopH cmp xa ya la ((readL s1 xa).length + (readL s1 ya).length) 0 0 s1 with
  | none => none
  | some (s2, i, j) =>
    some (writeH s2 la
      (readL s2 la ++ (readL s2 xa).drop i ++ (readL s2 ya).drop j), la)

/-- Store-level `merge_sorted` body, on fuel.  `deepcopy(xs)` and the two
slices allocate fresh objects; the base case returns the argument object
itself. -/
def mergeSortedFuelH (cmp : Cmp) : Nat → Store → Nat → Option (Store × Nat)
  | 0, _, _ => none
  | fuel + 1, s, a =>
    let xs := readL s a
    let (s1, dc_xs) := allocH s xs
    let middle := (readL s1 dc_xs).length / 2
    if xs.length = 1 ∨ xs.length = 0 then some (s1, a)
    else
      let (s2, left) := allocH s1 ((readL s1 dc_xs).take middle)
      let (s3, right) := allocH s2 ((readL s2 a).drop middle)
      (mergeSortedFuelH cmp fuel s3 left).bind fun ls =>
        (mergeSortedFuelH cmp fuel ls.1 right).bind fun rs =>
          _mergedH rs.1 ls.2 rs.2 cmp

/-- Store-level `merge_sorted(xs, cmp)`. -/
def merge_sortedH (s : Store) (a : Nat) (cmp : Cmp) : Option (Store × Nat) :=
  mergeSortedFuelH cmp ((readL s a).length + 1) s a

/-- Store-level partition loop of `quick_sorted`: `for i in xs`, appending to
the `higher`, `lower` and `equal` objects at addresses `ha`, `la`, `ea`. -/
def quickPartLoopH (pivot : Int) (ha la ea : Nat) : List Int → Store → Store
  | [], s => s
  | i :: rest, s =>
    let s := if pivot < i then appendH s ha i else s
    let s := if i < pivot then appendH s la i else appendH s ea i
    quickPartLoopH pivot ha la ea rest s

/-- Store-level `quick_sorted` body, on fuel.  `higher`, `lower` and `equal`
are allocated (as empty list displays) before the base-case test, as in the
source; the final concatenation allocates the result object. -/
def quickSortedFuelH (_cmp : Cmp) : Nat → Store → Nat → Option (Store × Except PyExc Nat)
  | 0, _, _ => none
  | fuel + 1, s, a =>
    let (s1, ha) := allocH s []
    let (s2, la) := allocH s1 []
    let (s3, ea) := allocH s2 []
    let xs := readL s3 a
    if xs.length = 1 then some (s3, Except.ok a)
    else
      match xs.get? 1 with
      | none => some (s3, Except.error PyExc.indexError)
      | some pivot =>
        let s4 := quickPartLoopH pivot ha la ea xs s3
        (quickSortedFuelH cmp_standard fuel s4 la).bind fun lt =>
          match lt.2 with
          | Except.error e => some (lt.1, Except.error e)
          | Except.ok less_than =>
            (quickSortedFuelH cmp_standard fuel lt.1 ha).bind fun gt =>
              match gt.2 with
              | Except.error e => some (gt.1, Except.error e)
              | Except.ok greater_than =>
                let (s7, res) := allocH gt.1
                  (readL gt.1 less_than ++ readL gt.1 ea ++ readL gt.1 greater_than)
                some (s7, Except.ok res)

/-- Store-level `quick_sorted(xs, cmp)`. -/
def quick_sortedH (s : Store) (a : Nat) (cmp : Cmp) : Option (Store × Except PyExc Nat) :=
  quickSortedFuelH cmp ((readL s a).length + 1) s a

/-- Frame relation between the stores before and after a call that only
allocates fresh list objects and writes through its own fresh addresses:
every object that existed before keeps its contents. -/
def Preserves (s s' : Store) : Prop :=
  s.length ≤ s'.length ∧ ∀ a, a < s.length → readL s' a = readL s a

/-! ## Basic comparator facts -/

theorem cmp_standard_total (a b : Int) :
    cmp_standard a b = -1 ∨ cmp_standard a b = 0 ∨ cmp_standard a b = 1 := by
  unfold cmp_standard; split_ifs <;> simp

theorem isComparator_cmp_standard : IsComparator cmp_standard := by
  refine ⟨cmp_standard_total, ?_, ?_, ?_⟩
  · intro a b
    unfold cmp_standard
    split_ifs <;> first | (simp; omega) | simp_all
  · intro a b
    unfold cmp_standard
    split_ifs <;> simp_all
  · intro a b c hab hbc
    unfold leC cmp_standard at *
    split_ifs at * <;> first | rfl | omega | simp_all

theorem cmp_standard_eq_zero {a b : Int} (h : cmp_standard a b = 0) : a = b := by
  unfold cmp_standard at h
  split_ifs at h <;> omega

/-! ## Claim theorems on concrete runs of the copying and in-place quicksorts -/

/-- C1: refuted by the code.  The copying quicksort does not preserve the
multiset of elements: on input `[1, 2, 3]` with the ascending comparator it
returns `[1, 2, 3, 3]`, duplicating the element `3` (the dangling `else` of
the partition puts every element greater than the pivot in both `higher` and
`equal`), which is not a permutation of the input. -/
theorem quick_sorted_duplicates_elements :
    quick_sorted [1, 2, 3] cmp_standard = some (Except.ok [1, 2, 3, 3]) ∧
      ¬ List.Perm [1, 2, 3, 3] [1, 2, 3] := by
  constructor
  · decide
  · intro h
    exact absurd h.length_eq (by decide)

/-- C2: refuted by the code.  The copying quicksort can return an unsorted
list: on input `[1, 3, 5, 3]` with the ascending comparator it returns
`[1, 3, 5, 3, 5]`, whose adjacent pair `(5, 3)` compares GREATER. -/
theorem quick_sorted_output_unsorted :
    quick_sorted [1, 3, 5, 3] cmp_standard = some (Except.ok [1, 3, 5, 3, 5]) ∧
      ¬ SortedC cmp_standard [1, 3, 5, 3, 5] := by
  constructor
  · decide
  · decide

/-- C3: refuted by the code on the empty list.  `quick_sorted([], ascending)`
raises `IndexError` (the base case only covers `len(xs) == 1`, so the pivot
subscript `xs[1]` is evaluated on the empty list); the single-element case
does return the list itself. -/
theorem quick_sorted_empty_raises :
    quick_sorted ([] : List Int) cmp_standard = some (Except.error PyExc.indexError) ∧
      quick_sorted [7] cmp_standard = some (Except.ok [7]) := by
  constructor
  · decide
  · decide

/-- C4: refuted by the code.  `quick_sort([3, 1, 2], ascending)` does not sort
the list: after partitioning it calls `quick_sort(xs[lo + 1], cmp)` on a
single element rather than on the sub-range `xs[lo + 1:]`, and the `len` call
on that int raises `TypeError`. -/
theorem quick_sort_raises_type_error :
    quick_sort [3, 1, 2] cmp_standard = some (Except.error PyExc.typeError) := by
  decide

/-- C9: confirmed.  The copying quicksort never consults the comparator it is
given: the partition uses the intrinsic `<` and `>` operators and the
recursive calls pass `cmp_standard`, so its behaviour (including raised
exceptions) is identical for any two comparators. -/
theorem quick_sorted_ignores_comparator (xs : List Int) (cmp1 cmp2 : Cmp) :
    quick_sorted xs cmp1 = quick_sorted xs cmp2 := rfl

/-- C7: counterexample.  `merge_sorted` is not stable: under the last-digit
comparator the elements `22` and `32` compare EQUAL, `22` precedes `32` in the
input `[12, 22, 32, 42]`, and `32` precedes `22` in the output
`[12, 32, 22, 42]` (the merge's EQUAL branch emits one element from each half
and advances both cursors, interleaving the halves). -/
theorem merge_sorted_not_stable :
    cmp_last_digit 22 32 = 0 ∧
      merge_sorted [12, 22, 32, 42] cmp_last_digit = some [12, 32, 22, 42] ∧
      List.indexOf 22 [(12 : Int), 22, 32, 42] < List.indexOf 32 [(12 : Int), 22, 32, 42] ∧
      List.indexOf 32 [(12 : Int), 32, 22, 42] < List.indexOf 22 [(12 : Int), 32, 22, 42] := by
  refine ⟨by decide, by decide, by decide, by decide⟩

/-- C7 as amended: there are an input, a conforming comparator and two
distinct elements comparing EQUAL whose relative order is reversed by
`merge_sorted`, so the sort is not stable. -/
theorem merge_sorted_instability_example :
    ∃ (xs out : List Int) (a b : Int),
      merge_sorted xs cmp_last_digit = some out ∧
        cmp_last_digit a b = 0 ∧ a ≠ b ∧
        List.indexOf a xs < List.indexOf b xs ∧
        List.indexOf b out < List.indexOf a out := by
  exact ⟨[12, 22, 32, 42], [12, 32, 22, 42], 22, 32,
    by decide, by decide, by decide, by decide, by decide⟩

/-- C8: counterexample.  Sorting an already-sorted sequence does not always
return an equal sequence: `[1, 2]` is sorted under the ascending comparator,
yet `quick_sorted` raises `IndexError` on it (recursing into the empty
`higher` list) and `quick_sort` raises `IndexError` (subscripting one past the
end); `[12, 22, 32, 42]` is sorted under the last-digit comparator, yet
`merge_sorted` returns the different sequence `[12, 32, 22, 42]`. -/
theorem sorting_not_idempotent :
    SortedC cmp_standard [1, 2] ∧
      quick_sorted [1, 2] cmp_standard ≠ some (Except.ok [1, 2]) ∧
      quick_sort [1, 2] cmp_standard ≠ some (Except.ok [1, 2]) ∧
      SortedC cmp_last_digit [12, 22, 32, 42] ∧
      merge_sorted [12, 22, 32, 42] cmp_last_digit ≠ some [12, 22, 32, 42] := by
  refine ⟨by decide, by decide, by decide, by decide, by decide⟩

/-! ## The merge loop: one-step characterisations -/

theorem mergedStep_eq_lt {cmp : Cmp} {xs ys : List Int} {i j : Nat} {acc : List Int}
    (h : cmp (xs.getD i 0) (ys.getD j 0) = -1) :
    mergedStep cmp xs ys i j acc = (acc ++ [xs.getD i 0], i + 1, j) := by
  unfold mergedStep
  rw [h]
  simp

theorem mergedStep_eq_eq {cmp : Cmp} {xs ys : List Int} {i j : Nat} {acc : List Int}
    (h : cmp (xs.getD i 0) (ys.getD j 0) = 0) :
    mergedStep cmp xs ys i j acc = (acc ++ [xs.getD i 0, ys.getD j 0], i + 1, j + 1) := by
  unfold mergedStep
  rw [h]
  simp

theorem mergedStep_eq_gt {cmp : Cmp} {xs ys : List Int} {i j : Nat} {acc : List Int}
    (h : cmp (xs.getD i 0) (ys.getD j 0) = 1) :
    mergedStep cmp xs ys i j acc = (acc ++ [ys.getD j 0], i, j + 1) := by
  unfold mergedStep
  rw [h]
  simp

theorem mergedStep_eq_other {cmp : Cmp} {xs ys : List Int} {i j : Nat} {acc : List Int}
    (h1 : cmp (xs.getD i 0) (ys.getD j 0) ≠ -1)
    (h0 : cmp (xs.getD i 0) (ys.getD j 0) ≠ 0)
    (h2 : cmp (xs.getD i 0) (ys.getD j 0) ≠ 1) :
    mergedStep cmp xs ys i j acc = (acc, i, j) := by
  unfold mergedStep
  dsimp only
  rw [if_neg h1, if_neg h0, if_neg h2]

/-! ## The merge loop: termination, permutation, sortedness -/

/-- With a comparator that only returns `-1`, `0` or `1`, every iteration of
the merge loop advances `i + j`, so fuel `(len xs - i) + (len ys - j)` always
suffices and the loop finishes. -/
theorem mergedLoop_isSome (cmp : Cmp) (xs ys : List Int)
    (hc : ∀ a b, cmp a b = -1 ∨ cmp a b = 0 ∨ cmp a b = 1) :
    ∀ (fuel i j : Nat) (acc : List Int),
      xs.length - i + (ys.length - j) ≤ fuel →
      (mergedLoop cmp xs ys fuel i j acc).isSome := by
  intro fuel
  induction fuel with
  | zero =>
    intro i j acc h
    simp only [mergedLoop]
    split
    · rename_i hg
      omega
    · simp
  | succ n ih =>
    intro i j acc h
    simp only [mergedLoop]
    split
    · rename_i hg
      rcases hc (xs.getD i 0) (ys.getD j 0) with hv | hv | hv
      · rw [mergedStep_eq_lt hv]
        exact ih (i + 1) j _ (by omega)
      · rw [mergedStep_eq_eq hv]
        exact ih (i + 1) (j + 1) _ (by omega)
      · rw [mergedStep_eq_gt hv]
        exact ih i (j + 1) _ (by omega)
    · simp

/-- Whenever the merge loop finishes, its result is a permutation of the
accumulator followed by the two unread remainders.  No comparator hypothesis
is needed: every branch keeps the combined multiset intact. -/
theorem mergedLoop_perm (cmp : Cmp) (xs ys : List Int) :
    ∀ (fuel i j : Nat) (acc r : List Int),
      mergedLoop cmp xs ys fuel i j acc = some r →
      r.Perm (acc ++ xs.drop i ++ ys.drop j) := by
  intro fuel
  induction fuel with
  | zero =>
    intro i j acc r h
    simp only [mergedLoop] at h
    split at h
    · simp at h
    · simp only [Option.some.injEq] at h
      exact h ▸ List.Perm.refl _
  | succ n ih =>
    intro i j acc r h
    simp only [mergedLoop] at h
    split at h
    · rename_i hg
      have hx : xs.getD i 0 = xs[i] := List.getD_eq_getElem xs 0 hg.1
      have hy : ys.getD j 0 = ys[j] := List.getD_eq_getElem ys 0 hg.2
      have hdx : xs.drop i = xs[i] :: xs.drop (i + 1) := List.drop_eq_getElem_cons hg.1
      have hdy : ys.drop j = ys[j] :: ys.drop (j + 1) := List.drop_eq_getElem_cons hg.2
      by_cases hv1 : cmp (xs.getD i 0) (ys.getD j 0) = -1
      · rw [mergedStep_eq_lt hv1] at h
        dsimp only at h
        refine (ih _ _ _ r h).trans ?_
        simp only [hdx, hx, List.append_assoc, List.cons_append, List.singleton_append]
        exact List.Perm.refl _
      · by_cases hv0 : cmp (xs.getD i 0) (ys.getD j 0) = 0
        · rw [mergedStep_eq_eq hv0] at h
          dsimp only at h
          refine (ih _ _ _ r h).trans ?_
          have hinner : (ys[j] :: (xs.drop (i + 1) ++ ys.drop (j + 1))).Perm
              (xs.drop (i + 1) ++ ys[j] :: ys.drop (j + 1)) := List.perm_middle.symm
          have h2 := List.Perm.append_left acc (hinner.cons xs[i])
          simp only [hdx, hdy, hx, hy, List.append_assoc, List.cons_append,
            List.singleton_append]
          exact h2
        · by_cases hv2 : cmp (xs.getD i 0) (ys.getD j 0) = 1
          · rw [mergedStep_eq_gt hv2] at h
            dsimp only at h
            refine (ih _ _ _ r h).trans ?_
            have hinner : (ys[j] :: (xs.drop i ++ ys.drop (j + 1))).Perm
                (xs.drop i ++ ys[j] :: ys.drop (j + 1)) := List.perm_middle.symm
            have h2 := List.Perm.append_left acc hinner
            simp only [hdy, hy, List.append_assoc, List.cons_append, List.singleton_append]
            exact h2
          · rw [mergedStep_eq_other hv1 hv0 hv2] at h
            dsimp only at h
            exact ih i j acc r h
    · simp only [Option.some.injEq] at h
      exact h ▸ List.Perm.refl _

theorem sortedC_head_le (cmp : Cmp) (hc : IsComparator cmp) :
    ∀ {x : Int} {l : List Int}, SortedC cmp (x :: l) → ∀ b ∈ l, leC cmp x b := by
  intro x l
  induction l generalizing x with
  | nil => intro _ b hb; simp at hb
  | cons y r ih =>
    intro h b hb
    rw [SortedC, List.chain'_cons] at h
    rcases List.mem_cons.mp hb with rfl | hbr
    · exact h.1
    · exact hc.le_trans x y b h.1 (ih h.2 b hbr)

theorem sortedC_append (cmp : Cmp) {l1 l2 : List Int}
    (h1 : SortedC cmp l1) (h2 : SortedC cmp l2)
    (h12 : ∀ a ∈ l1, ∀ b ∈ l2, leC cmp a b) : SortedC cmp (l1 ++ l2) := by
  rw [SortedC, List.chain'_append]
  exact ⟨h1, h2, fun x hx y hy =>
    h12 x (List.mem_of_mem_getLast? hx) y (List.mem_of_mem_head? hy)⟩

/-- The result assembled when the main merge loop stops holds a sorted list,
given the loop invariant (the accumulator is sorted, the remainders are
sorted, and every accumulated element is below every remaining one). -/
theorem merged_final_sorted (cmp : Cmp) {xs ys acc : List Int} {i j : Nat}
    (hg : ¬(i < xs.length ∧ j < ys.length))
    (hacc : SortedC cmp acc)
    (hsx : SortedC cmp (xs.drop i)) (hsy : SortedC cmp (ys.drop j))
    (inv1 : ∀ a ∈ acc, ∀ b ∈ xs.drop i, leC cmp a b)
    (inv2 : ∀ a ∈ acc, ∀ b ∈ ys.drop j, leC cmp a b) :
    SortedC cmp (acc ++ xs.drop i ++ ys.drop j) := by
  rcases not_and_or.mp hg with hi | hj
  · have hnil : xs.drop i = [] := List.drop_eq_nil_of_le (by omega)
    rw [hnil, List.append_nil]
    exact sortedC_append cmp hacc hsy inv2
  · have hnil : ys.drop j = [] := List.drop_eq_nil_of_le (by omega)
    rw [hnil, List.append_nil]
    exact sortedC_append cmp hacc hsx inv1

/-- Loop invariant proof for the sortedness of the merge loop's result. -/
theorem mergedLoop_sorted (cmp : Cmp) (hc : IsComparator cmp) (xs ys : List Int) :
    ∀ (fuel i j : Nat) (acc r : List Int),
      mergedLoop cmp xs ys fuel i j acc = some r →
      SortedC cmp acc →
      SortedC cmp (xs.drop i) → SortedC cmp (ys.drop j) →
      (∀ a ∈ acc, ∀ b ∈ xs.drop i, leC cmp a b) →
      (∀ a ∈ acc, ∀ b ∈ ys.drop j, leC cmp a b) →
      SortedC cmp r := by
  intro fuel
  induction fuel with
  | zero =>
    intro i j acc r h hacc hsx hsy inv1 inv2
    simp only [mergedLoop] at h
    split at h
    · simp at h
    · rename_i hg
      simp only [Option.some.injEq] at h
      exact h ▸ merged_final_sorted cmp hg hacc hsx hsy inv1 inv2
  | succ n ih =>
    intro i j acc r h hacc hsx hsy inv1 inv2
    simp only [mergedLoop] at h
    split at h
    · rename_i hg
      have hdx : xs.drop i = xs.getD i 0 :: xs.drop (i + 1) := by
        rw [List.getD_eq_getElem xs 0 hg.1]
        exact List.drop_eq_getElem_cons hg.1
      have hdy : ys.drop j = ys.getD j 0 :: ys.drop (j + 1) := by
        rw [List.getD_eq_getElem ys 0 hg.2]
        exact List.drop_eq_getElem_cons hg.2
      have hxmem : xs.getD i 0 ∈ xs.drop i := by
        rw [hdx]; exact List.mem_cons_self _ _
      have hymem : ys.getD j 0 ∈ ys.drop j := by
        rw [hdy]; exact List.mem_cons_self _ _
      have hsx1 : SortedC cmp (xs.drop (i + 1)) := by
        have := hdx ▸ hsx
        exact this.tail
      have hsy1 : SortedC cmp (ys.drop (j + 1)) := by
        have := hdy ▸ hsy
        exact this.tail
      have hxall : ∀ b ∈ xs.drop (i + 1), leC cmp (xs.getD i 0) b :=
        sortedC_head_le cmp hc (hdx ▸ hsx)
      have hyall : ∀ b ∈ ys.drop (j + 1), leC cmp (ys.getD j 0) b :=
        sortedC_head_le cmp hc (hdy ▸ hsy)
      have hsubx : ∀ b ∈ xs.drop (i + 1), b ∈ xs.drop i := by
        intro b hb; rw [hdx]; exact List.mem_cons_of_mem _ hb
      have hsuby : ∀ b ∈ ys.drop (j + 1), b ∈ ys.drop j := by
        intro b hb; rw [hdy]; exact List.mem_cons_of_mem _ hb
      rcases hc.total (xs.getD i 0) (ys.getD j 0) with hv | hv | hv
      · rw [mergedStep_eq_lt hv] at h
        dsimp only at h
        have hxy : leC cmp (xs.getD i 0) (ys.getD j 0) := Or.inl hv
        have hxdy : ∀ b ∈ ys.drop j, leC cmp (xs.getD i 0) b := by
          intro b hb
          rw [hdy] at hb
          rcases List.mem_cons.mp hb with rfl | hb'
          · exact hxy
          · exact hc.le_trans _ _ _ hxy (hyall b hb')
        refine ih (i + 1) j _ r h ?_ hsx1 hsy ?_ ?_
        · refine sortedC_append cmp hacc (List.chain'_singleton _) ?_
          intro a ha b hb
          rw [List.mem_singleton] at hb
          exact hb ▸ inv1 a ha _ hxmem
        · intro a ha b hb
          rcases List.mem_append.mp ha with ha' | ha'
          · exact inv1 a ha' b (hsubx b hb)
          · rw [List.mem_singleton] at ha'
            exact ha' ▸ hxall b hb
        · intro a ha b hb
          rcases List.mem_append.mp ha with ha' | ha'
          · exact inv2 a ha' b hb
          · rw [List.mem_singleton] at ha'
            exact ha' ▸ hxdy b hb
      · rw [mergedStep_eq_eq hv] at h
        dsimp only at h
        have hxy : leC cmp (xs.getD i 0) (ys.getD j 0) := Or.inr hv
        have hyx : leC cmp (ys.getD j 0) (xs.getD i 0) := Or.inr (hc.eq_symm _ _ hv)
        refine ih (i + 1) (j + 1) _ r h ?_ hsx1 hsy1 ?_ ?_
        · refine sortedC_append cmp hacc (List.chain'_pair.mpr hxy) ?_
          intro a ha b hb
          rcases List.mem_cons.mp hb with rfl | hb'
          · exact inv1 a ha _ hxmem
          · rw [List.mem_singleton] at hb'
            exact hb' ▸ inv2 a ha _ hymem
        · intro a ha b hb
          rcases List.mem_append.mp ha with ha' | ha'
          · exact inv1 a ha' b (hsubx b hb)
          · rcases List.mem_cons.mp ha' with rfl | ha''
            · exact hxall b hb
            · rw [List.mem_singleton] at ha''
              exact ha'' ▸ hc.le_trans _ _ _ hyx (hxall b hb)
        · intro a ha b hb
          rcases List.mem_append.mp ha with ha' | ha'
          · exact inv2 a ha' b (hsuby b hb)
          · rcases List.mem_cons.mp ha' with rfl | ha''
            · exact hc.le_trans _ _ _ hxy (hyall b hb)
            · rw [List.mem_singleton] at ha''
              exact ha'' ▸ hyall b hb
      · rw [mergedStep_eq_gt hv] at h
        dsimp only at h
        have hyx : leC cmp (ys.getD j 0) (xs.getD i 0) := Or.inl ((hc.flip _ _).mp hv)
        have hydx : ∀ b ∈ xs.drop i, leC cmp (ys.getD j 0) b := by
          intro b hb
          rw [hdx] at hb
          rcases List.mem_cons.mp hb with rfl | hb'
          · exact hyx
          · exact hc.le_trans _ _ _ hyx (hxall b hb')
        refine ih i (j + 1) _ r h ?_ hsx hsy1 ?_ ?_
        · refine sortedC_append cmp hacc (List.chain'_singleton _) ?_
          intro a ha b hb
          rw [List.mem_singleton] at hb
          exact hb ▸ inv2 a ha _ hymem
        · intro a ha b hb
          rcases List.mem_append.mp ha with ha' | ha'
          · exact inv1 a ha' b hb
          · rw [List.mem_singleton] at ha'
            exact ha' ▸ hydx b hb
        · intro a ha b hb
          rcases List.mem_append.mp ha with ha' | ha'
          · exact inv2 a ha' b (hsuby b hb)
          · rw [List.mem_singleton] at ha'
            exact ha' ▸ hyall b hb
    · rename_i hg
      simp only [Option.some.injEq] at h
      exact h ▸ merged_final_sorted cmp hg hacc hsx hsy inv1 inv2

theorem sortedC_of_short (cmp : Cmp) : ∀ {xs : List Int}, xs.length ≤ 1 → SortedC cmp xs := by
  intro xs h
  match xs with
  | [] => exact List.chain'_nil
  | [a] => exact List.chain'_singleton a
  | a :: b :: t => simp at h

/-- Full specification of `_merged` on sorted inputs under a conforming
comparator: the merge finishes and returns a sorted permutation of the
concatenation of its inputs. -/
theorem merged_spec (cmp : Cmp) (hc : IsComparator cmp) (A B : List Int)
    (hA : SortedC cmp A) (hB : SortedC cmp B) :
    ∃ r, _merged A B cmp = some r ∧ SortedC cmp r ∧ r.Perm (A ++ B) := by
  have hs : (mergedLoop cmp A B (A.length + B.length) 0 0 []).isSome :=
    mergedLoop_isSome cmp A B hc.total (A.length + B.length) 0 0 [] (by omega)
  rcases Option.isSome_iff_exists.mp hs with ⟨r, hr⟩
  refine ⟨r, hr, ?_, ?_⟩
  · refine mergedLoop_sorted cmp hc A B _ 0 0 [] r hr List.chain'_nil ?_ ?_ ?_ ?_
    · simpa using hA
    · simpa using hB
    · simp
    · simp
  · simpa using mergedLoop_perm cmp A B _ 0 0 [] r hr

/-- Specification of the merge sort body: with fuel above the input length
and a conforming comparator it returns a sorted permutation of the input. -/
theorem mergeSortedFuel_spec (cmp : Cmp) (hc : IsComparator cmp) :
    ∀ (fuel : Nat) (xs : List Int), xs.length < fuel →
      ∃ r, mergeSortedFuel cmp fuel xs = some r ∧ SortedC cmp r ∧ r.Perm xs := by
  intro fuel
  induction fuel with
  | zero => intro xs h; omega
  | succ n ih =>
    intro xs h
    by_cases hbase : xs.length = 1 ∨ xs.length = 0
    · refine ⟨xs, ?_, sortedC_of_short cmp (by omega), List.Perm.refl _⟩
      simp only [mergeSortedFuel]
      rw [if_pos hbase]
    · have hlen2 : 2 ≤ xs.length := by
        rcases Nat.lt_or_ge xs.length 2 with h2 | h2
        · exact absurd (by omega) hbase
        · exact h2
      obtain ⟨ls, hls, hlsort, hlperm⟩ := ih (xs.take (xs.length / 2)) (by simp; omega)
      obtain ⟨rs, hrs, hrsort, hrperm⟩ := ih (xs.drop (xs.length / 2)) (by simp; omega)
      obtain ⟨r, hm, hsort, hperm⟩ := merged_spec cmp hc ls rs hlsort hrsort
      refine ⟨r, ?_, hsort, ?_⟩
      · simp only [mergeSortedFuel, hls, hrs]
        rw [if_neg hbase]
        exact hm
      · exact hperm.trans (List.take_append_drop (xs.length / 2) xs ▸ (hlperm.append hrperm))

/-- `merge_sorted` returns a sorted permutation of its input whenever the
comparator conforms to the contract. -/
theorem merge_sorted_spec (cmp : Cmp) (hc : IsComparator cmp) (xs : List Int) :
    ∃ r, merge_sorted xs cmp = some r ∧ SortedC cmp r ∧ r.Perm xs :=
  mergeSortedFuel_spec cmp hc (xs.length + 1) xs (by omega)

/-- Two lists sorted under a conforming comparator whose EQUAL relation is
equality are identical once they are permutations of each other. -/
theorem sortedC_eq_of_perm (cmp : Cmp) (hc : IsComparator cmp)
    (hanti : ∀ a b, cmp a b = 0 → a = b) {l1 l2 : List Int}
    (hp : l1.Perm l2) (h1 : SortedC cmp l1) (h2 : SortedC cmp l2) : l1 = l2 := by
  haveI : IsTrans Int (leC cmp) := ⟨fun a b c => hc.le_trans a b c⟩
  haveI : IsAntisymm Int (leC cmp) := ⟨by
    intro a b hab hba
    rcases hab with hl | hz
    · have h1' : cmp b a = 1 := (hc.flip b a).mpr hl
      rcases hba with hba' | hba' <;> omega
    · exact hanti a b hz⟩
  exact List.eq_of_perm_of_sorted hp (List.chain'_iff_pairwise.mp h1)
    (List.chain'_iff_pairwise.mp h2)

/-- C8 as amended: `merge_sorted` is idempotent on sorted input whenever the
comparator conforms to the contract and its EQUAL answer implies element
equality (as for `cmp_standard`): on such input it returns the very same
list.  (As shown by the counterexample, the claim fails for `quick_sorted`
and `quick_sort`, which raise on the sorted list `[1, 2]`, and for
`merge_sorted` under comparators with distinct EQUAL-comparing elements.) -/
theorem merge_sorted_idempotent_on_sorted (cmp : Cmp) (xs : List Int)
    (hc : IsComparator cmp) (hanti : ∀ a b, cmp a b = 0 → a = b)
    (hs : SortedC cmp xs) : merge_sorted xs cmp = some xs := by
  obtain ⟨r, hr, hsort, hperm⟩ := merge_sorted_spec cmp hc xs
  rw [hr, sortedC_eq_of_perm cmp hc hanti hperm hsort hs]

theorem merge_sorted_idempotent_on_sorted_witness :
    merge_sorted [1, 2, 3] cmp_standard = some [1, 2, 3] :=
  merge_sorted_idempotent_on_sorted cmp_standard [1, 2, 3] isComparator_cmp_standard
    (fun a b h => cmp_standard_eq_zero h) (by decide)

/-- C10: confirmed.  With a comparator that only returns `-1`, `0` or `1`,
the merge loop of `_merged` terminates on all finite inputs (each iteration
advances a cursor, so `len(xs) + len(ys)` iterations suffice); when the
comparison yields any other value, the loop body leaves `(list_compiled, i, j)`
untouched, and with such a comparator (here the constant `2`) the loop spins
without progress: no amount of fuel makes it finish. -/
theorem merged_terminates_iff_conforming :
    (∀ cmp : Cmp, (∀ a b, cmp a b = -1 ∨ cmp a b = 0 ∨ cmp a b = 1) →
        ∀ xs ys : List Int, (_merged xs ys cmp).isSome) ∧
      (∀ (cmp : Cmp) (xs ys : List Int) (i j : Nat) (acc : List Int),
        cmp (xs.getD i 0) (ys.getD j 0) ≠ -1 →
        cmp (xs.getD i 0) (ys.getD j 0) ≠ 0 →
        cmp (xs.getD i 0) (ys.getD j 0) ≠ 1 →
        mergedStep cmp xs ys i j acc = (acc, i, j)) ∧
      (∀ fuel : Nat, mergedLoop (fun _ _ => 2) [0] [0] fuel 0 0 [] = none) := by
  refine ⟨?_, ?_, ?_⟩
  · intro cmp hc xs ys
    exact mergedLoop_isSome cmp xs ys hc (xs.length + ys.length) 0 0 [] (by omega)
  · intro cmp xs ys i j acc h1 h0 h2
    exact mergedStep_eq_other h1 h0 h2
  · intro fuel
    induction fuel with
    | zero =>
      simp only [mergedLoop]
      rw [if_pos (by decide)]
    | succ n ih =>
      simp only [mergedLoop]
      rw [if_pos (by decide)]
      rw [mergedStep_eq_other (by decide) (by decide) (by decide)]
      dsimp only
      exact ih

theorem merged_terminates_iff_conforming_witness :
    (_merged [1, 3, 5] [2, 4, 6] cmp_standard).isSome :=
  merged_terminates_iff_conforming.1 cmp_standard cmp_standard_total [1, 3, 5] [2, 4, 6]

/-! ## Store-level frame lemmas: the sorts only write through fresh objects -/

theorem preserves_refl (s : Store) : Preserves s s :=
  ⟨Nat.le_refl _, fun _ _ => rfl⟩

theorem preserves_trans {s1 s2 s3 : Store}
    (h12 : Preserves s1 s2) (h23 : Preserves s2 s3) : Preserves s1 s3 :=
  ⟨Nat.le_trans h12.1 h23.1,
    fun a ha => (h23.2 a (Nat.lt_of_lt_of_le ha h12.1)).trans (h12.2 a ha)⟩

theorem allocH_preserves (s : Store) (v : List Int) : Preserves s (allocH s v).1 := by
  refine ⟨by simp [allocH], ?_⟩
  intro a ha
  simp only [allocH, readL]
  rw [List.getD_append _ _ _ _ ha]

theorem length_appendH (s : Store) (a : Nat) (v : Int) :
    (appendH s a v).length = s.length := by
  simp [appendH, writeH]

theorem readL_writeH_ne {s : Store} {a b : Nat} (h : b ≠ a) (v : List Int) :
    readL (writeH s a v) b = readL s b := by
  simp only [writeH, readL, List.getD_eq_getElem?_getD]
  rw [List.getElem?_set_ne (Ne.symm h)]

theorem readL_appendH_ne {s : Store} {a b : Nat} (h : b ≠ a) (v : Int) :
    readL (appendH s a v) b = readL s b :=
  readL_writeH_ne h _

/-- A merge-loop iteration writes only through the `list_compiled` address. -/
theorem mergedStepH_frame (cmp : Cmp) (xa ya la i j : Nat) (s : Store) :
    (mergedStepH cmp xa ya la i j s).1.length = s.length ∧
      ∀ b, b ≠ la → readL (mergedStepH cmp xa ya la i j s).1 b = readL s b := by
  unfold mergedStepH
  dsimp only
  by_cases h1 : cmp ((readL s xa).getD i 0) ((readL s ya).getD j 0) = -1 <;>
    by_cases h0 : cmp ((readL s xa).getD i 0) ((readL s ya).getD j 0) = 0 <;>
      by_cases h2 : cmp ((readL s xa).getD i 0) ((readL s ya).getD j 0) = 1 <;>
        simp only [h1, h0, h2, if_true, if_false, reduceIte] <;>
          refine ⟨by simp [length_appendH], fun b hb => ?_⟩ <;>
            simp [readL_appendH_ne hb]

/-- The merge loop writes only through the `list_compiled` address. -/
theorem mergedLoopH_frame (cmp : Cmp) (xa ya la : Nat) :
    ∀ (fuel i j : Nat) (s s' : Store) (i' j' : Nat),
      mergedLoopH cmp xa ya la fuel i j s = some (s', i', j') →
      s'.length = s.length ∧ ∀ b, b ≠ la → readL s' b = readL s b := by
  intro fuel
  induction fuel with
  | zero =>
    intro i j s s' i' j' h
    simp only [mergedLoopH] at h
    split at h
    · simp at h
    · simp only [Option.some.injEq, Prod.mk.injEq] at h
      exact h.1 ▸ ⟨rfl, fun _ _ => rfl⟩
  | succ n ih =>
    intro i j s s' i' j' h
    simp only [mergedLoopH] at h
    split at h
    · have hstep := mergedStepH_frame cmp xa ya la i j s
      have hrec := ih _ _ _ s' _ _ h
      exact ⟨hrec.1.trans hstep.1,
        fun b hb => (hrec.2 b hb).trans (hstep.2 b hb)⟩
    · simp only [Option.some.injEq, Prod.mk.injEq] at h
      exact h.1 ▸ ⟨rfl, fun _ _ => rfl⟩

/-- `_merged` allocates `list_compiled` fresh and writes only through it, so
every list object existing at call time is preserved. -/
theorem mergedH_frame {s : Store} {xa ya : Nat} {cmp : Cmp} {s' : Store} {ra : Nat}
    (h : _mergedH s xa ya cmp = some (s', ra)) : Preserves s s' := by
  unfold _mergedH at h
  simp only [allocH] at h
  cases hm : mergedLoopH cmp xa ya s.length
      ((readL (s ++ [[]]) xa).length + (readL (s ++ [[]]) ya).length) 0 0 (s ++ [[]]) with
  | none => rw [hm] at h; simp at h
  | some t =>
    obtain ⟨s2, i2, j2⟩ := t
    rw [hm] at h
    simp only [Option.some.injEq, Prod.mk.injEq] at h
    have hloop := mergedLoopH_frame cmp xa ya s.length _ 0 0 (s ++ [[]]) s2 i2 j2 hm
    refine ⟨?_, ?_⟩
    · rw [← h.1]
      simp only [writeH, List.length_set]
      rw [hloop.1]
      simp
    · intro b hb
      have hbne : b ≠ s.length := Nat.ne_of_lt hb
      rw [← h.1]
      rw [readL_writeH_ne hbne]
      rw [hloop.2 b hbne]
      simp only [readL]
      rw [List.getD_append _ _ _ _ hb]

theorem preserves_append (s ext : Store) : Preserves s (s ++ ext) := by
  refine ⟨by simp, ?_⟩
  intro a ha
  simp only [readL]
  rw [List.getD_append _ _ _ _ ha]

/-- The merge sort only allocates fresh objects (the `deepcopy`, the two
slices, the merge accumulator) and writes only through them, so every object
existing at call time is preserved — in particular the argument. -/
theorem mergeSortedFuelH_frame (cmp : Cmp) :
    ∀ (fuel : Nat) (s : Store) (a : Nat) (s' : Store) (r : Nat),
      mergeSortedFuelH cmp fuel s a = some (s', r) → Preserves s s' := by
  intro fuel
  induction fuel with
  | zero => intro s a s' r h; simp [mergeSortedFuelH] at h
  | succ n ih =>
    intro s a s' r h
    simp only [mergeSortedFuelH, allocH] at h
    split at h
    · simp only [Option.some.injEq, Prod.mk.injEq] at h
      exact h.1 ▸ preserves_append s _
    · rcases Option.bind_eq_some.mp h with ⟨ls, heq1, h2⟩
      rcases Option.bind_eq_some.mp h2 with ⟨rs, heq2, h3⟩
      exact preserves_trans (preserves_append s _)
        (preserves_trans (preserves_append _ _)
          (preserves_trans (preserves_append _ _)
            (preserves_trans (ih _ _ _ _ heq1)
              (preserves_trans (ih _ _ _ _ heq2) (mergedH_frame h3)))))

/-- The partition loop of the copying quicksort writes only through the
`higher`, `lower` and `equal` addresses. -/
theorem quickPartLoopH_frame (pivot : Int) (ha la ea : Nat) :
    ∀ (ys : List Int) (s : Store),
      (quickPartLoopH pivot ha la ea ys s).length = s.length ∧
        ∀ b, b ≠ ha → b ≠ la → b ≠ ea →
          readL (quickPartLoopH pivot ha la ea ys s) b = readL s b := by
  intro ys
  induction ys with
  | nil => intro s; exact ⟨rfl, fun _ _ _ _ => rfl⟩
  | cons i rest ih =>
    intro s
    simp only [quickPartLoopH]
    by_cases h1 : pivot < i <;> by_cases h2 : i < pivot <;>
      simp only [h1, h2, if_true, if_false, reduceIte] <;>
        refine ⟨by rw [(ih _).1]; simp [length_appendH], ?_⟩ <;>
          intro b hb1 hb2 hb3 <;>
            rw [(ih _).2 b hb1 hb2 hb3] <;>
              simp [readL_appendH_ne hb1, readL_appendH_ne hb2, readL_appendH_ne hb3]

/-- The copying quicksort allocates its three partition lists and its result
fresh, writes only through them, and otherwise only recurses, so every object
existing at call time is preserved — in particular the argument. -/
theorem quickSortedFuelH_frame :
    ∀ (fuel : Nat) (cmp : Cmp) (s : Store) (a : Nat) (s' : Store) (out : Except PyExc Nat),
      quickSortedFuelH cmp fuel s a = some (s', out) → Preserves s s' := by
  intro fuel
  induction fuel with
  | zero => intro cmp s a s' out h; simp [quickSortedFuelH] at h
  | succ n ih =>
    intro cmp s a s' out h
    simp only [quickSortedFuelH, allocH] at h
    have hp3 : Preserves s (s ++ [[]] ++ [[]] ++ [[]]) :=
      preserves_trans (preserves_append s _)
        (preserves_trans (preserves_append _ _) (preserves_append _ _))
    split at h
    · simp only [Option.some.injEq, Prod.mk.injEq] at h
      exact h.1 ▸ hp3
    · split at h
      · simp only [Option.some.injEq, Prod.mk.injEq] at h
        exact h.1 ▸ hp3
      · rename_i pivot heqp
        rcases Option.bind_eq_some.mp h with ⟨lt, heq1, h2⟩
        obtain ⟨s5, out5⟩ := lt
        dsimp only at h2
        have hpart := quickPartLoopH_frame pivot (List.length s)
          (List.length (s ++ [[]])) (List.length (s ++ [[]] ++ [[]]))
          (readL (s ++ [[]] ++ [[]] ++ [[]]) a) (s ++ [[]] ++ [[]] ++ [[]])
        have hp4 : Preserves s (quickPartLoopH pivot (List.length s)
            (List.length (s ++ [[]])) (List.length (s ++ [[]] ++ [[]]))
            (readL (s ++ [[]] ++ [[]] ++ [[]]) a) (s ++ [[]] ++ [[]] ++ [[]])) := by
          refine ⟨?_, ?_⟩
          · rw [hpart.1]
            exact hp3.1
          · intro b hb
            rw [hpart.2 b (by omega) (by simp; omega) (by simp; omega)]
            exact hp3.2 b hb
        have hplt : Preserves s s5 := preserves_trans hp4 (ih _ _ _ _ _ heq1)
        match out5, h2 with
        | Except.error e, h2 =>
          simp only [Option.some.injEq, Prod.mk.injEq] at h2
          exact h2.1 ▸ hplt
        | Except.ok less_than, h2 => ?_
        rcases Option.bind_eq_some.mp h2 with ⟨gt, heq2, h3⟩
        obtain ⟨s6, out6⟩ := gt
        dsimp only at h3
        have hpgt : Preserves s s6 := preserves_trans hplt (ih _ _ _ _ _ heq2)
        match out6, h3 with
        | Except.error e, h3 =>
          simp only [Option.some.injEq, Prod.mk.injEq] at h3
          exact h3.1 ▸ hpgt
        | Except.ok greater_than, h3 =>
          simp only [Option.some.injEq, Prod.mk.injEq] at h3
          exact h3.1 ▸ preserves_trans hpgt (preserves_append _ _)

/-- C5: confirmed.  In the store semantics, whenever `merge_sorted` or
`quick_sorted` returns (with any result, sorted output or raised exception),
the caller's list object holds exactly the contents it held before the call:
both functions read their argument but only ever write freshly allocated
objects. -/
theorem merge_and_quick_sorted_do_not_mutate (cmp : Cmp) (s : Store) (a : Nat)
    (ha : a < s.length) :
    (∀ (s' : Store) (r : Nat), merge_sortedH s a cmp = some (s', r) →
        readL s' a = readL s a) ∧
      (∀ (s' : Store) (out : Except PyExc Nat), quick_sortedH s a cmp = some (s', out) →
        readL s' a = readL s a) :=
  ⟨fun s' r h => (mergeSortedFuelH_frame cmp _ s a s' r h).2 a ha,
    fun s' out h => (quickSortedFuelH_frame _ cmp s a s' out h).2 a ha⟩

theorem merge_and_quick_sorted_do_not_mutate_witness :
    readL [[2, 1], [2, 1], [2], [1], [2], [1], [1, 2]] 0 = [2, 1] ∧
      readL [[1, 2, 3], [3], [1], [2, 3], [], [], [], [], [], [], [1, 2, 3, 3]] 0 = [1, 2, 3] := by
  constructor
  · have h := (merge_and_quick_sorted_do_not_mutate cmp_standard [[2, 1]] 0 (by decide)).1
      [[2, 1], [2, 1], [2], [1], [2], [1], [1, 2]] 6 (by decide)
    exact h.trans (by decide)
  · have h := (merge_and_quick_sorted_do_not_mutate cmp_standard [[1, 2, 3]] 0 (by decide)).2
      [[1, 2, 3], [3], [1], [2, 3], [], [], [], [], [], [], [1, 2, 3, 3]]
      (Except.ok 10) (by decide)
    exact h.trans (by decide)

/-- C6: confirmed.  For individually sorted inputs under a conforming
comparator, `_merged` returns a sorted list containing all elements of both
inputs (their multisets add up, so in particular the length is the sum of the
input lengths); empty inputs are covered, and in the store semantics the merge
never writes any pre-existing object, so its inputs are not mutated. -/
theorem merged_merges_sorted_inputs (cmp : Cmp) (A B : List Int)
    (hc : IsComparator cmp) (hA : SortedC cmp A) (hB : SortedC cmp B) :
    (∃ r, _merged A B cmp = some r ∧ SortedC cmp r ∧ r.Perm (A ++ B) ∧
        r.length = A.length + B.length) ∧
      (∀ (s : Store) (xa ya : Nat) (s' : Store) (ra : Nat),
        _mergedH s xa ya cmp = some (s', ra) →
        ∀ b, b < s.length → readL s' b = readL s b) := by
  constructor
  · obtain ⟨r, hr, hsort, hperm⟩ := merged_spec cmp hc A B hA hB
    refine ⟨r, hr, hsort, hperm, ?_⟩
    rw [hperm.length_eq, List.length_append]
  · intro s xa ya s' ra h b hb
    exact (mergedH_frame h).2 b hb

theorem merged_merges_sorted_inputs_witness :
    (_merged [1, 2] [1, 3] cmp_standard).isSome := by
  obtain ⟨⟨r, hr, -, -, -⟩, -⟩ :=
    merged_merges_sorted_inputs cmp_standard [1, 2] [1, 3]
      isComparator_cmp_standard (by decide) (by decide)
  rw [hr]
  rfl

/-! ## Fuel adequacy for the quicksorts

The wrappers `quick_sorted` and `quick_sort` fix fuel `len(xs) + 1`; the
following lemmas show that this fuel covers every run, so the `none` of the
fuel embedding never reaches a caller of either wrapper. -/

theorem quickPartLoop_eq (pivot : Int) :
    ∀ (ys h l e : List Int),
      quickPartLoop pivot ys (h, l, e) =
        (h ++ ys.filter (fun i => decide (pivot < i)),
          l ++ ys.filter (fun i => decide (i < pivot)),
          e ++ ys.filter (fun i => ! decide (i < pivot))) := by
  intro ys
  induction ys with
  | nil => intro h l e; simp [quickPartLoop]
  | cons i rest ih =>
    intro h l e
    simp only [quickPartLoop]
    by_cases h1 : pivot < i <;> by_cases h2 : i < pivot <;>
      simp [h1, h2, ih, List.filter_cons]

theorem quickPartLoop_lower_length {pivot : Int} {xs : List Int} (hp : pivot ∈ xs) :
    (quickPartLoop pivot xs ([], [], [])).2.1.length < xs.length := by
  rw [quickPartLoop_eq]
  simp only [List.nil_append]
  exact List.length_filter_lt_length_iff_exists.mpr ⟨pivot, hp, by simp⟩

theorem quickPartLoop_higher_length {pivot : Int} {xs : List Int} (hp : pivot ∈ xs) :
    (quickPartLoop pivot xs ([], [], [])).1.length < xs.length := by
  rw [quickPartLoop_eq]
  simp only [List.nil_append]
  exact List.length_filter_lt_length_iff_exists.mpr ⟨pivot, hp, by simp⟩

theorem quickSortedFuel_isSome :
    ∀ (fuel : Nat) (cmp : Cmp) (xs : List Int), xs.length < fuel →
      (quickSortedFuel cmp fuel xs).isSome := by
  intro fuel
  induction fuel with
  | zero => intro cmp xs h; omega
  | succ n ih =>
    intro cmp xs h
    simp only [quickSortedFuel]
    split
    · rfl
    · cases hg : xs.get? 1 with
      | none => rfl
      | some pivot =>
        have hp : pivot ∈ xs := List.get?_mem hg
        rcases hq : quickPartLoop pivot xs ([], [], []) with ⟨h3, l3, e3⟩
        have hlow : l3.length < xs.length := by
          have hl := quickPartLoop_lower_length hp
          rw [hq] at hl
          exact hl
        have hhigh : h3.length < xs.length := by
          have hh := quickPartLoop_higher_length hp
          rw [hq] at hh
          exact hh
        have hs1 := ih cmp_standard l3 (by omega)
        have hs2 := ih cmp_standard h3 (by omega)
        simp only [hq]
        cases hr1 : quickSortedFuel cmp_standard n l3 with
        | none => rw [hr1] at hs1; simp at hs1
        | some v1 =>
          cases v1 with
          | error e => rfl
          | ok less_than =>
            cases hr2 : quickSortedFuel cmp_standard n h3 with
            | none => rw [hr2] at hs2; simp at hs2
            | some v2 =>
              cases v2 with
              | error e => rfl
              | ok greater_than => rfl

theorem qsPartLoop_length (cmp : Cmp) (hi : Nat) :
    ∀ (js : List Nat) (xs : List Int) (lo : Nat),
      (qsPartLoop cmp hi js xs lo).1.length = xs.length := by
  intro js
  induction js with
  | nil => intro xs lo; rfl
  | cons j rest ih =>
    intro xs lo
    simp only [qsPartLoop]
    split
    · rw [ih]
      simp
    · exact ih xs lo

theorem qsPartLoop_lo_le (cmp : Cmp) (hi : Nat) :
    ∀ (js : List Nat) (xs : List Int) (lo : Nat),
      (qsPartLoop cmp hi js xs lo).2 ≤ lo + js.length := by
  intro js
  induction js with
  | nil => intro xs lo; simp [qsPartLoop]
  | cons j rest ih =>
    intro xs lo
    simp only [qsPartLoop]
    split
    · have hrec := ih ((xs.set j (xs.getD lo 0)).set lo (xs.getD j 0)) (lo + 1)
      simp only [List.length_cons]
      omega
    · have hrec := ih xs lo
      simp only [List.length_cons]
      omega

theorem quickSortFuel_isSome :
    ∀ (fuel : Nat) (cmp : Cmp) (xs : List Int), xs.length < fuel →
      (quickSortFuel cmp fuel xs).isSome := by
  intro fuel
  induction fuel with
  | zero => intro cmp xs h; omega
  | succ n ih =>
    intro cmp xs h
    simp only [quickSortFuel]
    split
    · rfl
    · rename_i hbase
      split
      · rcases hq : qsPartLoop cmp (xs.length - 1) (List.range (xs.length - 1)) xs 0
          with ⟨xs1, lo1⟩
        have hlen1 : xs1.length = xs.length := by
          have hl := qsPartLoop_length cmp (xs.length - 1) (List.range (xs.length - 1)) xs 0
          rw [hq] at hl
          exact hl
        have hlo : lo1 ≤ xs.length - 1 := by
          have hl := qsPartLoop_lo_le cmp (xs.length - 1) (List.range (xs.length - 1)) xs 0
          rw [hq] at hl
          simpa using hl
        simp only [hq]
        have hrec := ih cmp
          (((xs1.set (xs.length - 1) (xs1.getD lo1 0)).set lo1
            (xs1.getD (xs.length - 1) 0)).take lo1)
          (by
            simp only [List.length_take, List.length_set, hlen1]
            omega)
        cases hr : quickSortFuel cmp n
            (((xs1.set (xs.length - 1) (xs1.getD lo1 0)).set lo1
              (xs1.getD (xs.length - 1) 0)).take lo1) with
        | none => rw [hr] at hrec; simp at hrec
        | some v =>
          cases v with
          | error e => rfl
          | ok r =>
            dsimp only
            split
            · rfl
            · rfl
      · rfl

theorem quick_sorted_isSome (xs : List Int) (cmp : Cmp) :
    (quick_sorted xs cmp).isSome :=
  quickSortedFuel_isSome (xs.length + 1) cmp xs (by omega)

theorem quick_sort_isSome (xs : List Int) (cmp : Cmp) :
    (quick_sort xs cmp).isSome :=
  quickSortFuel_isSome (xs.length + 1) cmp xs (by omega)

